import Mathlib

/-!
Verification of `soft_matrix_test_tones` (src/src/main.rs) against its
natural-language specification.

The program generates calibration WAV files: sequences of silence and
single-frequency tone bursts, optionally pre-transformed by a quadraphonic
style matrix encoder (`sq_encode`).  `f32` arithmetic is idealised as exact
real arithmetic (ℝ / ℂ); the external inverse FFT (rustfft) is modelled by
the standard unnormalised inverse discrete Fourier transform, which is the
behaviour rustfft documents.
-/

/-- Constant `HALF_PI` from main.rs line 12: `PI / 2.0`. -/
noncomputable def HALF_PI : ℝ := Real.pi / 2

/-- Constant `WINDOW_SIZE` from main.rs line 14. -/
def WINDOW_SIZE : ℕ := 50

/-- Constant `ITERATIONS_PER_TONE` from main.rs line 15. -/
def ITERATIONS_PER_TONE : ℕ := 200

/-- Constant `ITERATIONS_PER_SILENCE` from main.rs line 16. -/
def ITERATIONS_PER_SILENCE : ℕ := 20

/-- Function `Complex::from_polar(r, θ)` of the `num_complex` crate:
the complex number with real part `r·cos θ` and imaginary part `r·sin θ`. -/
noncomputable def fromPolar (r θ : ℝ) : ℂ := ⟨r * Real.cos θ, r * Real.sin θ⟩

/-- Function `sq_encode` from main.rs lines 142-164, translated clause by
clause.
`to_polar` is `(Complex.abs ·, Complex.arg ·)`. -/
noncomputable def sq_encode (left_front right_front left_rear right_rear : ℂ) :
    ℂ × ℂ :=
  let left_back_amplitude := Complex.abs left_rear
  let left_back_phase := Complex.arg left_rear
  let right_back_amplitude := Complex.abs right_rear
  let right_back_phase := Complex.arg right_rear
  let left_back_for_left_total :=
    fromPolar (0.7 * left_back_amplitude) (left_back_phase - HALF_PI)
  let right_back_for_left_total :=
    fromPolar (0.7 * right_back_amplitude) right_back_phase
  let left_total := left_front + left_back_for_left_total + right_back_for_left_total
  let left_back_for_right_total :=
    fromPolar (0.7 * left_back_amplitude) (left_back_phase + Real.pi)
  let right_back_for_right_total :=
    fromPolar (0.7 * right_back_amplitude) (right_back_phase + HALF_PI)
  let right_total := right_front + left_back_for_right_total + right_back_for_right_total
  (left_front + left_total, right_front + right_total)

/-- Evaluation of `fromPolar r θ` as `r·e^{iθ}`. -/
lemma fromPolar_eq (r θ : ℝ) :
    fromPolar r θ = (r : ℂ) * Complex.exp (θ * Complex.I) := by
  apply Complex.ext <;>
    simp [fromPolar, Complex.exp_ofReal_mul_I_re, Complex.exp_ofReal_mul_I_im]

/-- Scaling the modulus by `c` and shifting the argument by `θ` multiplies the
original number by `c·e^{iθ}`. -/
lemma fromPolar_abs_arg_add (c θ : ℝ) (z : ℂ) :
    fromPolar (c * Complex.abs z) (Complex.arg z + θ) =
      (c : ℂ) * Complex.exp ((θ : ℝ) * Complex.I) * z := by
  have h := Complex.abs_mul_exp_arg_mul_I z
  rw [fromPolar_eq]
  push_cast
  rw [add_mul, Complex.exp_add]
  linear_combination (c : ℂ) * Complex.exp ((θ : ℝ) * Complex.I) * h

/-- Keeping the argument unchanged just scales the number. -/
lemma fromPolar_abs_arg (c : ℝ) (z : ℂ) :
    fromPolar (c * Complex.abs z) (Complex.arg z) = (c : ℂ) * z := by
  have h := fromPolar_abs_arg_add c 0 z
  simpa using h

lemma exp_neg_half_pi_mul_I :
    Complex.exp ((-HALF_PI : ℝ) * Complex.I) = -Complex.I := by
  rw [Complex.exp_mul_I]
  simp [HALF_PI, ← Complex.ofReal_cos, ← Complex.ofReal_sin, Real.cos_pi_div_two,
    Real.sin_pi_div_two]

lemma exp_half_pi_mul_I :
    Complex.exp ((HALF_PI : ℝ) * Complex.I) = Complex.I := by
  rw [Complex.exp_mul_I]
  simp [HALF_PI, ← Complex.ofReal_cos, ← Complex.ofReal_sin, Real.cos_pi_div_two,
    Real.sin_pi_div_two]

lemma exp_pi_mul_I' :
    Complex.exp ((Real.pi : ℝ) * Complex.I) = -1 :=
  Complex.exp_pi_mul_I

/-- Closed form of the encoder: the polar manipulations amount to complex
multiplications by `-0.7i`, `0.7`, `-0.7` and `0.7i`. -/
lemma sq_encode_closed (lf rf lr rr : ℂ) :
    sq_encode lf rf lr rr =
      (2 * lf - 0.7 * Complex.I * lr + 0.7 * rr,
       2 * rf - 0.7 * lr + 0.7 * Complex.I * rr) := by
  unfold sq_encode
  have c07 : (((0.7 : ℝ)) : ℂ) = (0.7 : ℂ) := by norm_num
  have h1 : fromPolar (0.7 * Complex.abs lr) (Complex.arg lr - HALF_PI) =
      (0.7 : ℂ) * (-Complex.I) * lr := by
    rw [sub_eq_add_neg, fromPolar_abs_arg_add, exp_neg_half_pi_mul_I, c07]
  have h2 : fromPolar (0.7 * Complex.abs rr) (Complex.arg rr) = (0.7 : ℂ) * rr := by
    rw [fromPolar_abs_arg, c07]
  have h3 : fromPolar (0.7 * Complex.abs lr) (Complex.arg lr + Real.pi) =
      (0.7 : ℂ) * (-1) * lr := by
    rw [fromPolar_abs_arg_add, exp_pi_mul_I', c07]
  have h4 : fromPolar (0.7 * Complex.abs rr) (Complex.arg rr + HALF_PI) =
      (0.7 : ℂ) * Complex.I * rr := by
    rw [fromPolar_abs_arg_add, exp_half_pi_mul_I, c07]
  simp only [h1, h2, h3, h4]
  simp only [Prod.mk.injEq]
  exact ⟨by ring, by ring⟩

/-- Claim C1, counterexample: at `L = 1` the encoder returns `(2, 0)`,
not `(2, 1)` as the spec asserts — the right encoded output is zero because
`right_total = right_front + 0 + 0 = 0` when all inputs but `left_front`
vanish. -/
theorem sq_encode_left_front_only_counterexample :
    sq_encode 1 0 0 0 ≠ ((2 : ℂ), (1 : ℂ)) := by
  rw [sq_encode_closed]
  simp [Prod.ext_iff]

/-- Claim C1, amended: for every complex `L`,
`sq_encode L 0 0 0 = (2·L, 0)` — the left encoded output is twice the
front-left input and the right encoded output is zero. -/
theorem sq_encode_left_front_only (L : ℂ) :
    sq_encode L 0 0 0 = (2 * L, 0) := by
  rw [sq_encode_closed]
  simp

/-- Claim C4: the encoder computes `left_total` as `left_front` plus
`0.7·|left_rear| ∠ (arg left_rear − 90°)` plus `0.7·|right_rear| ∠ arg right_rear`,
computes `right_total` as `right_front` plus `0.7·|left_rear| ∠ (arg left_rear + 180°)`
plus `0.7·|right_rear| ∠ (arg right_rear + 90°)`, and returns
`(left_front + left_total, right_front + right_total)`. -/
theorem sq_encode_formula (lf rf lr rr : ℂ) :
    sq_encode lf rf lr rr =
      (lf + (lf + fromPolar (0.7 * Complex.abs lr) (Complex.arg lr - HALF_PI)
          + fromPolar (0.7 * Complex.abs rr) (Complex.arg rr)),
       rf + (rf + fromPolar (0.7 * Complex.abs lr) (Complex.arg lr + Real.pi)
          + fromPolar (0.7 * Complex.abs rr) (Complex.arg rr + HALF_PI))) := rfl

/-- Claim C7: the encoder is linear in its four complex inputs — it satisfies
superposition componentwise on both output channels. -/
theorem sq_encode_linear (a b x1 x2 x3 x4 y1 y2 y3 y4 : ℂ) :
    sq_encode (a * x1 + b * y1) (a * x2 + b * y2) (a * x3 + b * y3) (a * x4 + b * y4) =
      (a * (sq_encode x1 x2 x3 x4).1 + b * (sq_encode y1 y2 y3 y4).1,
       a * (sq_encode x1 x2 x3 x4).2 + b * (sq_encode y1 y2 y3 y4).2) := by
  simp only [sq_encode_closed]
  simp only [Prod.mk.injEq]
  exact ⟨by ring, by ring⟩

/-- Claim C10: with both rear inputs zero the encoder doubles each front
input on its own channel: `sq_encode L R 0 0 = (2·L, 2·R)`. -/
theorem sq_encode_fronts_only (L R : ℂ) :
    sq_encode L R 0 0 = (2 * L, 2 * R) := by
  rw [sq_encode_closed]
  simp

/-- Per-channel body of `ToneGenerator::create_window` (main.rs lines 221-242):
a zero vector of length `window_size`, with index `1` set to the tone and
index `window_size - 1` set to `{re: tone.re, im: -1.0 * tone.im}`. -/
def create_window1 (W : ℕ) (tone : ℂ) : List ℂ :=
  ((List.replicate W (0 : ℂ)).set 1 tone).set (W - 1) ⟨tone.re, -1 * tone.im⟩

/-- Function `create_window` from main.rs lines 221-242: both channel windows are built
by the same per-channel construction. -/
def create_window (W : ℕ) (tones : ℂ × ℂ) : List ℂ × List ℂ :=
  (create_window1 W tones.1, create_window1 W tones.2)

lemma mk_re_neg_im (T : ℂ) : (⟨T.re, -1 * T.im⟩ : ℂ) = (starRingEnd ℂ) T := by
  apply Complex.ext <;> simp

lemma create_window1_length (W : ℕ) (T : ℂ) : (create_window1 W T).length = W := by
  simp [create_window1]

lemma create_window1_getElem_one (W : ℕ) (hW : 3 ≤ W) (T : ℂ) :
    (create_window1 W T)[1]? = some T := by
  unfold create_window1
  rw [List.getElem?_set_ne (by omega : W - 1 ≠ 1)]
  exact List.getElem?_set_eq_of_lt T (by simp; omega)

lemma create_window1_getElem_last (W : ℕ) (hW : 3 ≤ W) (T : ℂ) :
    (create_window1 W T)[W - 1]? = some ((starRingEnd ℂ) T) := by
  unfold create_window1
  rw [← mk_re_neg_im]
  exact List.getElem?_set_eq_of_lt _ (by simp; omega)

lemma create_window1_getElem_other (W : ℕ) (T : ℂ) (i : ℕ)
    (hi : i < W) (h1 : i ≠ 1) (h2 : i ≠ W - 1) :
    (create_window1 W T)[i]? = some 0 := by
  unfold create_window1
  rw [List.getElem?_set_ne (fun h => h2 h.symm), List.getElem?_set_ne (fun h => h1 h.symm)]
  simp [List.getElem?_replicate, hi]

/-- Claim C3: for window length `W ≥ 3` and every tone `T`, the per-channel
spectral window has `W` bins, bin `1` is `T`, bin `W-1` is the complex
conjugate of `T`, and every other bin is exactly zero. -/
theorem create_window_bins (W : ℕ) (T : ℂ) (hW : 3 ≤ W) :
    (create_window1 W T).length = W ∧
    (create_window1 W T)[1]? = some T ∧
    (create_window1 W T)[W - 1]? = some ((starRingEnd ℂ) T) ∧
    ∀ i, i < W → i ≠ 1 → i ≠ W - 1 → (create_window1 W T)[i]? = some 0 :=
  ⟨create_window1_length W T, create_window1_getElem_one W hW T,
   create_window1_getElem_last W hW T,
   fun i hi h1 h2 => create_window1_getElem_other W T i hi h1 h2⟩

/-- Witness for claim C3 at the program's window size `W = 50` and tone `2 - 3i`. -/
theorem create_window_bins_witness :
    3 ≤ 50 ∧
    ((create_window1 50 ⟨2, -3⟩).length = 50 ∧
     (create_window1 50 ⟨2, -3⟩)[1]? = some ⟨2, -3⟩ ∧
     (create_window1 50 ⟨2, -3⟩)[50 - 1]? = some ((starRingEnd ℂ) ⟨2, -3⟩) ∧
     ∀ i, i < 50 → i ≠ 1 → i ≠ 50 - 1 → (create_window1 50 ⟨2, -3⟩)[i]? = some 0) :=
  ⟨by decide, create_window_bins 50 ⟨2, -3⟩ (by decide)⟩

/-- Field `scale` of `ToneGenerator` (main.rs line 70): `1.0 / sqrt(W)`,
parametrised here by the window size. -/
noncomputable def scale (W : ℕ) : ℝ := 1 / Real.sqrt W

/-- Unnormalised inverse discrete Fourier transform of length `W`, the
documented behaviour of rustfft's `plan_fft_inverse` used at main.rs
lines 250-253: `out[n] = Σ_k in[k]·e^{2πikn/W}`. -/
noncomputable def idft (W : ℕ) (X : ℕ → ℂ) (n : ℕ) : ℂ :=
  ∑ k ∈ Finset.range W, X k * Complex.exp (2 * (Real.pi : ℂ) * Complex.I * k * n / W)

/-- Sample `n` of one channel as emitted by `ToneGenerator::write_tones`
(main.rs lines 255-259): the scaled real component of the inverse transform
of the window. -/
noncomputable def rendered_sample (W : ℕ) (window : List ℂ) (n : ℕ) : ℝ :=
  scale W * (idft W (fun k => window.getD k 0) n).re

/-- Sample `n` of the tone rendered from the spectral window of tone `T`. -/
noncomputable def tone_samples (W : ℕ) (T : ℂ) (n : ℕ) : ℝ :=
  rendered_sample W (create_window1 W T) n

/-- Peak absolute sample value over one rendered window. -/
noncomputable def peak (W : ℕ) (T : ℂ) : ℝ :=
  ((List.range W).map fun n => |tone_samples W T n|).foldr max 0

lemma create_window1_getD (W : ℕ) (hW : 3 ≤ W) (T : ℂ) (k : ℕ) :
    (create_window1 W T).getD k 0 =
      if k = 1 then T else if k = W - 1 then (starRingEnd ℂ) T else 0 := by
  rw [List.getD_eq_getElem?_getD]
  by_cases h1 : k = 1
  · subst h1
    rw [create_window1_getElem_one W hW T]
    simp [show (1 : ℕ) ≠ W - 1 by omega]
  · by_cases h2 : k = W - 1
    · subst h2
      rw [create_window1_getElem_last W hW T]
      simp [h1]
    · by_cases hk : k < W
      · rw [create_window1_getElem_other W T k hk h1 h2]
        simp [h1, h2]
      · rw [List.getElem?_eq_none (by simp [create_window1_length]; omega)]
        simp [h1, h2]

lemma idft_tone (W : ℕ) (hW : 3 ≤ W) (T : ℂ) (n : ℕ) :
    idft W (fun k => (create_window1 W T).getD k 0) n =
      T * Complex.exp (2 * (Real.pi : ℂ) * Complex.I * n / W) +
        (starRingEnd ℂ) T * Complex.exp (-(2 * (Real.pi : ℂ) * Complex.I * n / W)) := by
  have hW0 : (W : ℂ) ≠ 0 := Nat.cast_ne_zero.mpr (by omega)
  unfold idft
  simp only [create_window1_getD W hW T]
  have split : ∀ k ∈ Finset.range W,
      (if k = 1 then T else if k = W - 1 then (starRingEnd ℂ) T else 0) *
          Complex.exp (2 * (Real.pi : ℂ) * Complex.I * k * n / W) =
        (if k = 1 then T * Complex.exp (2 * (Real.pi : ℂ) * Complex.I * k * n / W) else 0) +
        (if k = W - 1 then
          (starRingEnd ℂ) T * Complex.exp (2 * (Real.pi : ℂ) * Complex.I * k * n / W) else 0) := by
    intro k _
    rcases eq_or_ne k 1 with h1 | h1
    · subst h1
      simp [show (1 : ℕ) ≠ W - 1 by omega]
    · rcases eq_or_ne k (W - 1) with h2 | h2
      · subst h2
        simp [h1]
      · simp [h1, h2]
  rw [Finset.sum_congr rfl split, Finset.sum_add_distrib,
    Finset.sum_ite_eq' (Finset.range W) 1, Finset.sum_ite_eq' (Finset.range W) (W - 1)]
  have h1mem : (1 : ℕ) ∈ Finset.range W := Finset.mem_range.mpr (by omega)
  have h2mem : W - 1 ∈ Finset.range W := Finset.mem_range.mpr (by omega)
  rw [if_pos h1mem, if_pos h2mem]
  congr 1
  · norm_num
  · congr 1
    have hcast : ((W - 1 : ℕ) : ℂ) = (W : ℂ) - 1 := by
      push_cast [Nat.cast_sub (by omega : 1 ≤ W)]
      ring
    have harg : 2 * (Real.pi : ℂ) * Complex.I * ((W - 1 : ℕ) : ℂ) * n / W =
        -(2 * (Real.pi : ℂ) * Complex.I * n / W) +
          ((n : ℤ) : ℂ) * (2 * (Real.pi : ℂ) * Complex.I) := by
      rw [hcast]
      field_simp
      ring
    rw [harg, Complex.exp_add, Complex.exp_int_mul_two_pi_mul_I, mul_one]

lemma idft_tone_re (W : ℕ) (hW : 3 ≤ W) (T : ℂ) (n : ℕ) :
    (idft W (fun k => (create_window1 W T).getD k 0) n).re =
      2 * (T * Complex.exp (2 * (Real.pi : ℂ) * Complex.I * n / W)).re := by
  rw [idft_tone W hW T n]
  have hconj : (starRingEnd ℂ) T * Complex.exp (-(2 * (Real.pi : ℂ) * Complex.I * n / W)) =
      (starRingEnd ℂ) (T * Complex.exp (2 * (Real.pi : ℂ) * Complex.I * n / W)) := by
    rw [map_mul, ← Complex.exp_conj]
    congr 1
    simp [map_div₀, map_ofNat, map_natCast]
    ring_nf
  rw [hconj, Complex.add_conj]
  simp

lemma abs_fromPolar (r θ : ℝ) : Complex.abs (fromPolar r θ) = |r| := by
  rw [fromPolar_eq, map_mul, Complex.abs_ofReal, Complex.abs_exp_ofReal_mul_I, mul_one]

lemma tone_samples_abs_le (W : ℕ) (hW : 3 ≤ W) (T : ℂ) (n : ℕ) :
    |tone_samples W T n| ≤ 2 * Complex.abs T / Real.sqrt W := by
  unfold tone_samples rendered_sample scale
  rw [idft_tone_re W hW T n]
  have hphase : 2 * (Real.pi : ℂ) * Complex.I * n / W =
      ((2 * Real.pi * n / W : ℝ) : ℂ) * Complex.I := by
    push_cast
    ring
  have habs : Complex.abs (T * Complex.exp (2 * (Real.pi : ℂ) * Complex.I * n / W)) =
      Complex.abs T := by
    rw [map_mul, hphase, Complex.abs_exp_ofReal_mul_I, mul_one]
  have hre : |(T * Complex.exp (2 * (Real.pi : ℂ) * Complex.I * n / W)).re| ≤
      Complex.abs T := habs ▸ Complex.abs_re_le_abs _
  have hs : (0 : ℝ) ≤ 1 / Real.sqrt W := by positivity
  have key : |2 * (T * Complex.exp (2 * (Real.pi : ℂ) * Complex.I * n / W)).re| ≤
      2 * Complex.abs T := by
    rw [abs_mul, abs_of_nonneg (by norm_num : (0:ℝ) ≤ (2:ℝ))]
    exact mul_le_mul_of_nonneg_left hre (by norm_num)
  calc |1 / Real.sqrt W * (2 * (T * Complex.exp (2 * (Real.pi : ℂ) * Complex.I * n / W)).re)|
      = 1 / Real.sqrt W * |2 * (T * Complex.exp (2 * (Real.pi : ℂ) * Complex.I * n / W)).re| := by
        rw [abs_mul, abs_of_nonneg hs]
    _ ≤ 1 / Real.sqrt W * (2 * Complex.abs T) := mul_le_mul_of_nonneg_left key hs
    _ = 2 * Complex.abs T / Real.sqrt W := by ring

lemma tone_samples_zero (W : ℕ) (hW : 3 ≤ W) (m : ℝ) :
    tone_samples W (fromPolar m 0) 0 = 2 * m / Real.sqrt W := by
  unfold tone_samples rendered_sample scale
  rw [idft_tone_re W hW _ 0]
  simp [fromPolar]
  ring

lemma foldr_max_le (l : List ℝ) (a : ℝ) (h0 : 0 ≤ a) (h : ∀ x ∈ l, x ≤ a) :
    l.foldr max 0 ≤ a := by
  induction l with
  | nil => simpa using h0
  | cons x xs ih =>
    simp only [List.foldr_cons]
    exact max_le (h x (by simp)) (ih fun y hy => h y (by simp [hy]))

lemma le_foldr_max (l : List ℝ) (a : ℝ) (ha : a ∈ l) : a ≤ l.foldr max 0 := by
  induction l with
  | nil => simp at ha
  | cons x xs ih =>
    simp only [List.foldr_cons]
    rcases List.mem_cons.mp ha with h | h
    · exact h ▸ le_max_left _ _
    · exact le_trans (ih h) (le_max_right _ _)

lemma peak_le (W : ℕ) (hW : 3 ≤ W) (m p : ℝ) (hm : 0 ≤ m) :
    peak W (fromPolar m p) ≤ 2 * m / Real.sqrt W := by
  apply foldr_max_le
  · positivity
  · intro x hx
    obtain ⟨n, _, rfl⟩ := List.mem_map.mp hx
    calc |tone_samples W (fromPolar m p) n|
        ≤ 2 * Complex.abs (fromPolar m p) / Real.sqrt W := tone_samples_abs_le W hW _ n
      _ = 2 * m / Real.sqrt W := by rw [abs_fromPolar, abs_of_nonneg hm]

lemma peak_phase_zero (W : ℕ) (hW : 3 ≤ W) (m : ℝ) (hm : 0 ≤ m) :
    peak W (fromPolar m 0) = 2 * m / Real.sqrt W := by
  refine le_antisymm (peak_le W hW m 0 hm) ?_
  have hmem : |tone_samples W (fromPolar m 0) 0| ∈
      (List.range W).map fun n => |tone_samples W (fromPolar m 0) n| :=
    List.mem_map.mpr ⟨0, List.mem_range.mpr (by omega), rfl⟩
  have h0 : |tone_samples W (fromPolar m 0) 0| = 2 * m / Real.sqrt W := by
    rw [tone_samples_zero W hW m]
    exact abs_of_nonneg (by positivity)
  exact h0 ▸ le_foldr_max _ _ hmem

/-- Claim C2, amended: the peak absolute sample value of the rendered tone of
magnitude `m ≥ 0` is `2·m/√W` at phase `0`, and never exceeds `2·m/√W` at any
phase.  It scales with the window length `W` and does not equal `m`. -/
theorem tone_peak (W : ℕ) (m p : ℝ) (hW : 3 ≤ W) (hm : 0 ≤ m) :
    peak W (fromPolar m p) ≤ 2 * m / Real.sqrt W ∧
    peak W (fromPolar m 0) = 2 * m / Real.sqrt W :=
  ⟨peak_le W hW m p hm, peak_phase_zero W hW m hm⟩

/-- Witness for claim C2's amended theorem at `W = 50`, `m = 1`, `p = π`. -/
theorem tone_peak_witness :
    3 ≤ 50 ∧ (0 : ℝ) ≤ 1 ∧
    (peak 50 (fromPolar 1 Real.pi) ≤ 2 * 1 / Real.sqrt 50 ∧
     peak 50 (fromPolar 1 0) = 2 * 1 / Real.sqrt 50) :=
  ⟨by decide, by norm_num, tone_peak 50 1 Real.pi (by decide) (by norm_num)⟩

/-- Claim C2, counterexample: at the program's window size `W = 50` and the
tone `1∠0`, the peak sample value is `2/√50 ≈ 0.283`, not the requested
magnitude `1` — the `1/√W` normalisation does not make the peak equal `m`. -/
theorem tone_peak_counterexample : peak 50 (fromPolar 1 0) ≠ 1 := by
  rw [peak_phase_zero 50 (by norm_num) 1 (by norm_num)]
  rw [show (((50 : ℕ) : ℝ)) = (50 : ℝ) by norm_num]
  have h4 : Real.sqrt 4 = 2 := by
    rw [show (4 : ℝ) = 2 ^ 2 by norm_num, Real.sqrt_sq (by norm_num : (0:ℝ) ≤ 2)]
  have hlt : (2 : ℝ) < Real.sqrt 50 := by
    have := Real.sqrt_lt_sqrt (by norm_num : (0:ℝ) ≤ 4) (by norm_num : (4:ℝ) < 50)
    linarith [h4]
  intro hcontra
  rw [div_eq_one_iff_eq (ne_of_gt (by linarith : (0:ℝ) < Real.sqrt 50))] at hcontra
  linarith

/-- Frame sequence produced by `ToneGenerator::write_tones` (main.rs lines
244-268): `iterations_per_tone` repetitions of the `window_size` samples of
the inverse-transformed windows, one `(front_left, front_right)` frame per
sample. -/
noncomputable def write_tones_frames (W ipt : ℕ) (windows : List ℂ × List ℂ) :
    List (ℝ × ℝ) :=
  (List.range ipt).flatMap fun _ =>
    (List.range W).map fun ctr =>
      (rendered_sample W windows.1 ctr, rendered_sample W windows.2 ctr)

/-- Frame sequence produced by `ToneGenerator::write_silence` (main.rs lines
270-282): `iterations_per_silence × window_size` frames of `(0.0, 0.0)`. -/
def write_silence_frames (W ips : ℕ) : List (ℝ × ℝ) :=
  (List.range ips).flatMap fun _ =>
    (List.range W).map fun _ => ((0 : ℝ), (0 : ℝ))

/-- Frame sequence of one output file as produced by
`ToneGenerator::write_all_tones` (main.rs lines 167-219): a leading silence
segment, then for each direction in the source's order — center, right front,
right middle, right rear, rear center, left rear, left middle, left front —
a tone segment followed by a silence segment. -/
noncomputable def write_all_tones_frames (W ipt ips : ℕ)
    (center right_front right_middle right_rear rear_center left_rear
      left_middle left_front : ℂ × ℂ) : List (ℝ × ℝ) :=
  write_silence_frames W ips ++
  write_tones_frames W ipt (create_window W center) ++ write_silence_frames W ips ++
  write_tones_frames W ipt (create_window W right_front) ++ write_silence_frames W ips ++
  write_tones_frames W ipt (create_window W right_middle) ++ write_silence_frames W ips ++
  write_tones_frames W ipt (create_window W right_rear) ++ write_silence_frames W ips ++
  write_tones_frames W ipt (create_window W rear_center) ++ write_silence_frames W ips ++
  write_tones_frames W ipt (create_window W left_rear) ++ write_silence_frames W ips ++
  write_tones_frames W ipt (create_window W left_middle) ++ write_silence_frames W ips ++
  write_tones_frames W ipt (create_window W left_front) ++ write_silence_frames W ips

lemma length_range_flatMap {β : Type} (n W : ℕ) (f : ℕ → List β)
    (h : ∀ i, (f i).length = W) : ((List.range n).flatMap f).length = n * W := by
  induction n with
  | zero => simp
  | succ k ih =>
    rw [List.range_succ, List.flatMap_append]
    simp [List.length_append, ih, h, Nat.succ_mul]

lemma write_silence_frames_length (W ips : ℕ) :
    (write_silence_frames W ips).length = ips * W :=
  length_range_flatMap ips W _ (fun _ => by simp)

lemma write_tones_frames_length (W ipt : ℕ) (windows : List ℂ × List ℂ) :
    (write_tones_frames W ipt windows).length = ipt * W :=
  length_range_flatMap ipt W _ (fun _ => by simp)

lemma write_all_tones_frames_length (W ipt ips : ℕ)
    (c rf rm rr rc lr lm lf : ℂ × ℂ) :
    (write_all_tones_frames W ipt ips c rf rm rr rc lr lm lf).length =
      ips * W * 9 + ipt * W * 8 := by
  simp only [write_all_tones_frames, List.length_append,
    write_silence_frames_length, write_tones_frames_length]
  ring

/-- Claim C5: one output file holds exactly
`iterations_per_silence·W·9 + iterations_per_tone·W·8` frames, independent of
the eight directional tone values; with the program's constants this is
`20·50·9 + 200·50·8 = 89000`. -/
theorem write_all_tones_frame_count (W ipt ips : ℕ)
    (c rf rm rr rc lr lm lf : ℂ × ℂ) :
    (write_all_tones_frames W ipt ips c rf rm rr rc lr lm lf).length =
      ips * W * 9 + ipt * W * 8 ∧
    (write_all_tones_frames WINDOW_SIZE ITERATIONS_PER_TONE ITERATIONS_PER_SILENCE
        c rf rm rr rc lr lm lf).length = 89000 := by
  refine ⟨write_all_tones_frames_length W ipt ips c rf rm rr rc lr lm lf, ?_⟩
  rw [write_all_tones_frames_length]
  norm_num [WINDOW_SIZE, ITERATIONS_PER_TONE, ITERATIONS_PER_SILENCE]

/-- Claim C6: the file is one leading silence segment followed, for each of
the eight directions in the fixed order center, right front, right middle,
right rear, rear center, left rear, left middle, left front, by that
direction's tone segment immediately followed by a silence segment — so every
tone segment is framed by silence on both sides. -/
theorem write_all_tones_sequence (W ipt ips : ℕ)
    (c rf rm rr rc lr lm lf : ℂ × ℂ) :
    write_all_tones_frames W ipt ips c rf rm rr rc lr lm lf =
      write_silence_frames W ips ++
        ([c, rf, rm, rr, rc, lr, lm, lf].flatMap fun t =>
          write_tones_frames W ipt (create_window W t) ++ write_silence_frames W ips) := by
  simp [write_all_tones_frames, List.append_assoc]

lemma write_silence_frames_eq_replicate (W ips : ℕ) :
    write_silence_frames W ips = List.replicate (ips * W) ((0 : ℝ), (0 : ℝ)) := by
  induction ips with
  | zero => simp [write_silence_frames]
  | succ k ih =>
    have step : write_silence_frames W (k + 1) =
        write_silence_frames W k ++ ((List.range W).map fun _ => ((0 : ℝ), (0 : ℝ))) := by
      unfold write_silence_frames
      rw [List.range_succ, List.flatMap_append]
      simp
    rw [step, ih, show ((List.range W).map fun _ => ((0 : ℝ), (0 : ℝ))) =
        List.replicate W ((0 : ℝ), (0 : ℝ)) from by
      simp [List.map_const', List.eq_replicate_iff], ← List.replicate_add,
      Nat.succ_mul]

/-- Claim C8: a silence segment is exactly `iterations_per_silence × W`
frames, every one of them `(0.0, 0.0)` on both channels; it does not depend
on the tone values of the test plan. -/
theorem write_silence_frames_zero (W ips : ℕ) :
    write_silence_frames W ips = List.replicate (ips * W) ((0 : ℝ), (0 : ℝ)) :=
  write_silence_frames_eq_replicate W ips

/-- Modelled from the spec: the Sink collaborator (the `wave_stream` crate,
outside this repository) can fail on any per-frame write; `err i` is the
outcome of the write at sample index `i`.  `writeSeq` plays the write loops of
`write_all_tones` (every call is `.unwrap()`-ed, main.rs lines 261-263 and
275-277): frames are written at consecutive sample indices and the first
failing write aborts the run, returning the frames written so far and the
error. -/
def writeSeq {E : Type} (err : ℕ → Option E) :
    ℕ → List (ℝ × ℝ) → List (ℝ × ℝ) × Option E
  | _, [] => ([], none)
  | start, f :: rest =>
    match err start with
    | some e => ([], some e)
    | none =>
      let p := writeSeq err (start + 1) rest
      (f :: p.1, p.2)

/-- Modelled from the spec: one file generation against the fallible sink —
sink open (main.rs lines 181-182), the per-frame writes starting at sample
index 0, then flush (main.rs line 218).  Each step is `.unwrap()`-ed in the
source, so the first failure ends generation with that error and nothing
later runs. -/
def generate {E : Type} (openRes : Option E) (err : ℕ → Option E)
    (flushRes : Option E) (frames : List (ℝ × ℝ)) : List (ℝ × ℝ) × Option E :=
  match openRes with
  | some e => ([], some e)
  | none =>
    match writeSeq err 0 frames with
    | (written, some e) => (written, some e)
    | (written, none) => (written, flushRes)

lemma writeSeq_fail {E : Type} (err : ℕ → Option E) (e : E) :
    ∀ (frames : List (ℝ × ℝ)) (k start : ℕ),
      (∀ i, i < k → err (start + i) = none) → err (start + k) = some e →
      k < frames.length →
      writeSeq err start frames = (frames.take k, some e) := by
  intro frames
  induction frames with
  | nil => intro k start _ _ hk; simp at hk
  | cons f rest ih =>
    intro k start hnone hfail hk
    cases k with
    | zero =>
      simp only [Nat.add_zero] at hfail
      simp [writeSeq, hfail]
    | succ k =>
      have h0 : err start = none := by
        have := hnone 0 (Nat.succ_pos k)
        simpa using this
      have hrec := ih k (start + 1)
        (fun i hi => by
          have := hnone (i + 1) (by omega)
          simpa [Nat.add_assoc, Nat.add_comm 1 i] using this)
        (by
          have : start + 1 + k = start + (k + 1) := by omega
          rw [this]; exact hfail)
        (by simpa using Nat.lt_of_succ_lt_succ hk)
      simp [writeSeq, h0, hrec, List.take_succ_cons]

lemma writeSeq_ok {E : Type} (err : ℕ → Option E) :
    ∀ (frames : List (ℝ × ℝ)) (start : ℕ),
      (∀ i, i < frames.length → err (start + i) = none) →
      writeSeq err start frames = (frames, none) := by
  intro frames
  induction frames with
  | nil => intro start _; simp [writeSeq]
  | cons f rest ih =>
    intro start hnone
    have h0 : err start = none := by simpa using hnone 0 (by simp)
    have hrec := ih (start + 1) (fun i hi => by
      have := hnone (i + 1) (by simpa using Nat.succ_lt_succ hi)
      simpa [Nat.add_assoc, Nat.add_comm 1 i] using this)
    simp [writeSeq, h0, hrec]

/-- Claim C9: against the fallible sink, an error from any sink operation —
open, per-frame write, or flush — ends generation of the file at once with
that error surfaced: an open failure writes no frames, a first write failure
at sample index `k` leaves exactly the first `k` frames written, and a flush
failure after all writes surfaces the flush error; in no case is the error
swallowed. -/
theorem generate_error_propagation {E : Type} (e : E) (err : ℕ → Option E)
    (flushRes : Option E) (k W ipt ips : ℕ) (c rf rm rr rc lr lm lf : ℂ × ℂ)
    (hnone : ∀ i, i < k → err i = none) (hfail : err k = some e)
    (hk : k < (write_all_tones_frames W ipt ips c rf rm rr rc lr lm lf).length) :
    generate (some e) err flushRes
        (write_all_tones_frames W ipt ips c rf rm rr rc lr lm lf) = ([], some e) ∧
    generate none err flushRes
        (write_all_tones_frames W ipt ips c rf rm rr rc lr lm lf) =
      ((write_all_tones_frames W ipt ips c rf rm rr rc lr lm lf).take k, some e) ∧
    ∀ err2 : ℕ → Option E,
      (∀ i, i < (write_all_tones_frames W ipt ips c rf rm rr rc lr lm lf).length →
        err2 i = none) →
      generate none err2 (some e)
          (write_all_tones_frames W ipt ips c rf rm rr rc lr lm lf) =
        (write_all_tones_frames W ipt ips c rf rm rr rc lr lm lf, some e) := by
  refine ⟨rfl, ?_, ?_⟩
  · have h := writeSeq_fail err e
      (write_all_tones_frames W ipt ips c rf rm rr rc lr lm lf) k 0
      (fun i hi => by simpa using hnone i hi) (by simpa using hfail) hk
    simp [generate, h]
  · intro err2 hnone2
    have h := writeSeq_ok err2
      (write_all_tones_frames W ipt ips c rf rm rr rc lr lm lf) 0
      (fun i hi => by simpa using hnone2 i hi)
    simp [generate, h]

/-- Sink model that fails exactly at sample index 2. -/
def failAtTwo : ℕ → Option Unit := fun j => if j = 2 then some () else none

/-- Frame list of the default file with an all-zero test plan, used as the
concrete input of claim C9's witness. -/
noncomputable def framesExample : List (ℝ × ℝ) :=
  write_all_tones_frames WINDOW_SIZE ITERATIONS_PER_TONE ITERATIONS_PER_SILENCE
    (0, 0) (0, 0) (0, 0) (0, 0) (0, 0) (0, 0) (0, 0) (0, 0)

/-- Witness for claim C9: with a sink failing first at sample index 2, the
run writes exactly the first two frames and surfaces the error. -/
theorem generate_error_propagation_witness :
    (∀ i, i < 2 → failAtTwo i = none) ∧ failAtTwo 2 = some () ∧
    generate none failAtTwo none framesExample = (framesExample.take 2, some ()) := by
  have h1 : ∀ i, i < 2 → failAtTwo i = none := fun i hi => by
    simp [failAtTwo]; omega
  have h2 : failAtTwo 2 = some () := rfl
  have h3 : 2 < (write_all_tones_frames WINDOW_SIZE ITERATIONS_PER_TONE
      ITERATIONS_PER_SILENCE (0, 0) (0, 0) (0, 0) (0, 0) (0, 0) (0, 0) (0, 0)
      (0, 0)).length := by
    rw [write_all_tones_frames_length]
    norm_num [WINDOW_SIZE, ITERATIONS_PER_TONE, ITERATIONS_PER_SILENCE]
  exact ⟨h1, h2,
    (generate_error_propagation () failAtTwo none 2 WINDOW_SIZE ITERATIONS_PER_TONE
      ITERATIONS_PER_SILENCE (0, 0) (0, 0) (0, 0) (0, 0) (0, 0) (0, 0) (0, 0) (0, 0)
      h1 h2 h3).2.1⟩
